import Mathlib

/-!
Verification development for the scapegoat-tree repository.

The development shallowly embeds the two cited implementations:

* `SG` models `src/sgtree.hpp`: the compact scapegoat array storing
  `maybe<pair>` entries in a `buffer` at their implicit heap positions,
  with an `unsigned` element counter `count`.
* `CS` models `src/trees/compact_sgtree.hpp`: the flag-encoded variant
  whose nodes carry `deleted`/`left`/`right` flags.

Keys and values are instantiated at `Int`, matching the integral
instantiations used by `main.cpp` and `tests/tests.cpp`.  C++ `unsigned`
index arithmetic is modelled over `Nat` with an explicit `% 2^32` where
the code relies on wraparound (`parent`, `sibling` at the root, the
`-1` sentinels); child index arithmetic `2*i+1` / `2*i+2` is modelled
without the 32-bit wrap, which is exact for every index below `2^31`
(every index the program can store, since a buffer of that many
entries is already beyond the `unsigned` allocation the code performs,
and all child arithmetic is applied to in-bounds indices).

Every C++ loop or unbounded recursion is modelled with an explicit
step meter (`fuel`); exhausting the meter yields `none`, and callers
pass meters that provably cover every terminating execution of the
loop.  Reads and writes through `buffer::operator[]` (which carries
`assert(i < size)`) and through `maybe::operator->`/`operator*`
(which carries `assert(!nil)`) are modelled as `Option`-valued
accesses, so `none` marks exactly the executions in which a C++
assertion would fire.
-/

namespace SG

/-- Numeric range of the C++ `unsigned` indices used by `sgtree`. -/
def U : Nat := 4294967296

/-- Model of `sgtree::pair`: one key/value mapping. -/
structure Pair where
  key : Int
  val : Int
deriving Repr, DecidableEq

/-- Model of `sgtree::entry = maybe<pair>`: an optionally engaged slot. -/
abbrev Entry := Option Pair

/-- Model of the `sgtree` state: the buffer `data` (its length is the
    C++ `data.size`) and the element counter `count`. -/
structure Tree where
  data : List Entry
  count : Nat
deriving Repr, DecidableEq

/-- Child index `left(i) = 2*(i+1)-1`. -/
def left (i : Nat) : Nat := 2*i + 1

/-- Child index `right(i) = 2*(i+1)-0`. -/
def right (i : Nat) : Nat := 2*i + 2

/-- Parent index `parent(i) = (i+1)/2 - 1` over `unsigned` arithmetic:
    `parent 0 = 2^32 - 1` and `parent (2^32-1) = 2^32 - 1`. -/
def parent (i : Nat) : Nat := ((i+1) % U / 2 + (U - 1)) % U

/-- Sibling index `sibling(i) = ((i+1) ^ 1) - 1` over `unsigned`
    arithmetic: `sibling 0 = 2^32 - 1` and `sibling (2^32-1) = 0`. -/
def sibling (i : Nat) : Nat := ((((i+1) % U) ^^^ 1) + (U - 1)) % U

/-- Unchecked read of slot `i` (used only under a `valid` guard, where
    the C++ access cannot fault). -/
def getE (t : Tree) (i : Nat) : Entry := t.data.getD i none

/-- Checked read of slot `i` through `buffer::operator[]`:
    `none` marks a failing `assert(i < size)`. -/
def readE (t : Tree) (i : Nat) : Option Entry :=
  if i < t.data.length then some (getE t i) else none

/-- Checked write of slot `i` through `buffer::operator[]`. -/
def setE (t : Tree) (i : Nat) (e : Entry) : Option Tree :=
  if i < t.data.length then some { t with data := t.data.set i e } else none

/-- Checked `std::swap(data[a], data[b])`. -/
def swapE (t : Tree) (a b : Nat) : Option Tree :=
  if a < t.data.length ∧ b < t.data.length then
    some { t with data := (t.data.set a (getE t b)).set b (getE t a) }
  else none

/-- Validity for the normal navigator: `i < data.size && data[i]`. -/
def valid (t : Tree) (i : Nat) : Bool :=
  decide (i < t.data.length) && (getE t i).isSome

/-- Occupancy of slot `i` as a proposition. -/
def Occ (t : Tree) (i : Nat) : Prop :=
  i < t.data.length ∧ (getE t i).isSome

/-- Number of occupied slots of the buffer. -/
def occCount (t : Tree) : Nat := (t.data.filter Option.isSome).length

/-- Loop of `smallest`: `while (valid(i)) { p = i; i = left(p); }`.
    Each iteration strictly increases `i`, so `data.size + 1` steps
    always suffice. -/
def smallestF (t : Tree) : Nat → Nat → Nat → Option Nat
  | 0, _, _ => none
  | fuel+1, i, p => if valid t i then smallestF t fuel (left i) i else some p

/-- `smallest(i)` of the normal navigator, starting from `p = -1`. -/
def smallest (t : Tree) (i : Nat) : Option Nat :=
  smallestF t (t.data.length + 1) i (U - 1)

/-- Loop of `largest`: `while (valid(i)) { p = i; i = right(p); }`. -/
def largestF (t : Tree) : Nat → Nat → Nat → Option Nat
  | 0, _, _ => none
  | fuel+1, i, p => if valid t i then largestF t fuel (right i) i else some p

/-- `largest(i)` of the normal navigator, starting from `p = -1`. -/
def largest (t : Tree) (i : Nat) : Option Nat :=
  largestF t (t.data.length + 1) i (U - 1)

/-- Climb loop of `succ`:
    `while (p < data.size && i != left(p)) { i = p; p = parent(i); }`. -/
def succClimbF (t : Tree) : Nat → Nat → Nat → Option Nat
  | 0, _, _ => none
  | fuel+1, i, p =>
    if p < t.data.length ∧ i ≠ left p then succClimbF t fuel p (parent p)
    else some p

/-- `succ(i)` of the normal navigator. -/
def succF (t : Tree) (fuel : Nat) (i : Nat) : Option Nat :=
  if valid t (right i) then smallestF t fuel (right i) (U - 1)
  else succClimbF t fuel i (parent i)

/-- `succ(i)` with a sufficient step meter: the descent visits strictly
    increasing indices below `data.size` and the climb strictly
    decreases until it leaves the buffer. -/
def succ (t : Tree) (i : Nat) : Option Nat :=
  succF t (t.data.length + i + 2) i

/-- Climb loop of `pred`:
    `while (p < data.size && i != right(p)) { i = p; p = parent(i); }`. -/
def predClimbF (t : Tree) : Nat → Nat → Nat → Option Nat
  | 0, _, _ => none
  | fuel+1, i, p =>
    if p < t.data.length ∧ i ≠ right p then predClimbF t fuel p (parent p)
    else some p

/-- `pred(i)` of the normal navigator. -/
def predF (t : Tree) (fuel : Nat) (i : Nat) : Option Nat :=
  if valid t (left i) then largestF t fuel (left i) (U - 1)
  else predClimbF t fuel i (parent i)

/-- `pred(i)` with a sufficient step meter. -/
def pred (t : Tree) (i : Nat) : Option Nat :=
  predF t (t.data.length + i + 2) i

/-- Descent loop of `lookup`: standard BST search from the root,
    stopping at the first invalid index. -/
def lookupF (t : Tree) (k : Int) : Nat → Nat → Option Nat
  | 0, _ => none
  | fuel+1, i =>
    if valid t i then
      match getE t i with
      | some e =>
        if k < e.key then lookupF t k fuel (left i)
        else if e.key < k then lookupF t k fuel (right i)
        else some i
      | none => some i
    else some i

/-- `lookup(key)`: the visited indices double at each step, so
    `data.size + 2` steps always suffice. -/
def lookup (t : Tree) (k : Int) : Option Nat :=
  lookupF t k (t.data.length + 2) 0

/-- Recursive `weight(i)`: the number of valid slots of the subtree at
    `i`.  The meter bounds the recursion depth. -/
def weightF (t : Tree) : Nat → Nat → Option Nat
  | 0, _ => none
  | fuel+1, i =>
    if valid t i then do
      let a ← weightF t fuel (left i)
      let b ← weightF t fuel (right i)
      pure (a + b + 1)
    else pure 0

/-- `weight(i)` with a depth meter that always suffices. -/
def weight (t : Tree) (i : Nat) : Option Nat :=
  weightF t (t.data.length + 1) i

/-- Recursive `scapegoat(i, w)`: accumulate the sibling weight, test
    `2*a > w' || 2*b > w'`, and either return `(parent(i), w')` or
    recurse at `parent(i)`. -/
def scapegoatF (t : Tree) : Nat → Nat → Nat → Option (Nat × Nat)
  | 0, _, _ => none
  | fuel+1, i, w => do
    let b ← weight t (sibling i)
    let w2 := w + b + 1
    if 2*w > w2 ∨ 2*b > w2 then pure (parent i, w2)
    else scapegoatF t fuel (parent i) w2

/-- Model of `sgtree::perfect`: an index together with the doubled
    weight budget `w` that bounds further descent. -/
structure Perf where
  i : Nat
  w : Nat
deriving Repr, DecidableEq

/-- Constructor `perfect(i, w)`, which stores `w := 2*w`. -/
def mkPerf (i w : Nat) : Perf := ⟨i, 2*w⟩

/-- Conversion constructor `perfect(unsigned i)`, which stores `w := 1`. -/
def perfOfIdx (i : Nat) : Perf := ⟨i, 1⟩

/-- Validity for the perfect navigator: `i.w > 1`. -/
def validP (p : Perf) : Bool := decide (1 < p.w)

/-- Perfect `left`: child index, half the budget. -/
def leftP (p : Perf) : Perf := ⟨left p.i, p.w / 2⟩

/-- Perfect `right`: child index, half the budget. -/
def rightP (p : Perf) : Perf := ⟨right p.i, p.w / 2⟩

/-- Perfect `parent`: parent index, doubled budget. -/
def parentP (p : Perf) : Perf := ⟨parent p.i, 2 * p.w⟩

/-- Loop of `smallest` instantiated at the perfect navigator. -/
def smallestPF : Nat → Perf → Perf → Option Perf
  | 0, _, _ => none
  | fuel+1, i, p => if validP i then smallestPF fuel (leftP i) i else some p

/-- Climb loop of `succ` at the perfect navigator; the `unsigned`
    conversions compare the index components. -/
def succClimbPF (t : Tree) : Nat → Perf → Perf → Option Perf
  | 0, _, _ => none
  | fuel+1, i, p =>
    if p.i < t.data.length ∧ i.i ≠ (leftP p).i then
      succClimbPF t fuel p (parentP p)
    else some p

/-- `succ(i)` at the perfect navigator. -/
def succPF (t : Tree) (fuel : Nat) (i : Perf) : Option Perf :=
  if validP (rightP i) then smallestPF fuel (rightP i) (perfOfIdx (U - 1))
  else succClimbPF t fuel i (parentP i)

/-- Validity for the terrible (raw) navigator: `i < data.size`. -/
def validT (t : Tree) (i : Nat) : Bool := decide (i < t.data.length)

/-- Loop of `smallest` at the terrible navigator. -/
def smallestTF (t : Tree) : Nat → Nat → Nat → Option Nat
  | 0, _, _ => none
  | fuel+1, i, p =>
    if validT t i then smallestTF t fuel (left i) i else some p

/-- Loop of `largest` at the terrible navigator. -/
def largestTF (t : Tree) : Nat → Nat → Nat → Option Nat
  | 0, _, _ => none
  | fuel+1, i, p =>
    if validT t i then largestTF t fuel (right i) i else some p

/-- Climb loop of `succ` at the terrible navigator. -/
def succClimbTF (t : Tree) : Nat → Nat → Nat → Option Nat
  | 0, _, _ => none
  | fuel+1, i, p =>
    if p < t.data.length ∧ i ≠ left p then succClimbTF t fuel p (parent p)
    else some p

/-- `succ(i)` at the terrible navigator. -/
def succTF (t : Tree) (fuel : Nat) (i : Nat) : Option Nat :=
  if validT t (right i) then smallestTF t fuel (right i) (U - 1)
  else succClimbTF t fuel i (parent i)

/-- Climb loop of `pred` at the terrible navigator. -/
def predClimbTF (t : Tree) : Nat → Nat → Nat → Option Nat
  | 0, _, _ => none
  | fuel+1, i, p =>
    if p < t.data.length ∧ i ≠ right p then predClimbTF t fuel p (parent p)
    else some p

/-- `pred(i)` at the terrible navigator. -/
def predTF (t : Tree) (fuel : Nat) (i : Nat) : Option Nat :=
  if validT t (left i) then largestTF t fuel (left i) (U - 1)
  else predClimbTF t fuel i (parent i)

/-- Compaction loop of `rebalance`: `w-1` times
    `swap(data[t], data[j]); j = pred(j); t = pred(t);`.
    Returns the final state and cursors. -/
def rebalA (nf : Nat) : Nat → Tree → Nat → Nat → Option (Tree × Nat × Nat)
  | 0, t, j, tt => some (t, j, tt)
  | n+1, t, j, tt => do
    let t1 ← swapE t tt j
    let j1 ← predF t1 nf j
    let tt1 ← predTF t1 nf tt
    rebalA nf n t1 j1 tt1

/-- Distribution loop of `rebalance`:
    `for (; n < w-1 && data[t]->key < e->key; n++) swap/advance`.
    The counter counts the remaining iterations; the result carries the
    state, the cursors, and the unconsumed count for the final loop. -/
def rebalB (nf : Nat) (ek : Int) :
    Nat → Tree → Perf → Nat → Option (Tree × Perf × Nat × Nat)
  | 0, t, p, tt => some (t, p, tt, 0)
  | n+1, t, p, tt => do
    let ent ← readE t tt
    let pe ← ent
    if pe.key < ek then do
      let t1 ← swapE t p.i tt
      let p1 ← succPF t1 nf p
      let tt1 ← succTF t1 nf tt
      rebalB nf ek n t1 p1 tt1
    else some (t, p, tt, n+1)

/-- Tail loop of `rebalance`: the remaining
    `swap(data[p], data[t]); p = succ(p); t = succ(t);` iterations. -/
def rebalC (nf : Nat) : Nat → Tree → Perf → Nat → Option Tree
  | 0, t, _, _ => some t
  | n+1, t, p, tt => do
    let t1 ← swapE t p.i tt
    let p1 ← succPF t1 nf p
    let tt1 ← succTF t1 nf tt
    rebalC nf n t1 p1 tt1

/-- Model of `sgtree::rebalance(i, w, e)`.  The callers only pass
    `w ≥ 1`, so the loop count `w-1` is plain subtraction. -/
def rebalance (t : Tree) (i w : Nat) (e : Pair) : Option Tree := do
  let nf := t.data.length + 2
  let j0 ← largestF t (t.data.length + 1) i (U - 1)
  let t0 ← largestTF t (t.data.length + 1) i (U - 1)
  let (t1, _, tta) ← rebalA nf (w-1) t j0 t0
  let p0 ← smallestPF (t.data.length + 2) (mkPerf i w) (perfOfIdx (U - 1))
  let tt1 ← succTF t1 nf tta
  let (t2, p2, tt2, r) ← rebalB nf e.key (w-1) t1 p0 tt1
  let t3 ← setE t2 p2.i (some e)
  let p3 ← succPF t3 nf p2
  rebalC nf r t3 p3 tt2

/-- Model of `buffer::resize(nsize)`: destroy the tail, keep the
    prefix, default-construct (empty) new slots. -/
def resize (t : Tree) (nsize : Nat) : Tree :=
  { t with data := t.data.take nsize ++ List.replicate (nsize - t.data.length) none }

/-- Model of `sgtree::expand(i, e)`: run the scapegoat walk from the
    missed index with initial weight 1; rebalance at a valid scapegoat,
    otherwise grow the buffer to `2*size+1` (or 1 from 0).  The walk
    meter `i+5` covers the climb to the root plus the wrapped levels
    (see `scapegoatF_total`). -/
def expand (t : Tree) (i : Nat) (e : Pair) : Option Tree := do
  let (g, w) ← scapegoatF t (i + 5) i 1
  if valid t g then rebalance t g w e
  else pure (resize t (if t.data.length = 0 then 1 else (2*t.data.length + 1) % U))

/-- Model of `sgtree::insert(key, val)`. -/
def insert (t : Tree) (k v : Int) : Option Tree := do
  let i ← lookup t k
  if i + 1 > t.data.length then expand t i ⟨k, v⟩
  else do
    let t1 ← setE t i (some ⟨k, v⟩)
    pure { t1 with count := t1.count + 1 }

/-- Model of `sgtree::erase(key)`.  The read `data[j]` goes through the
    checked access, so `none` marks the buffer bounds assertion firing. -/
def erase (t : Tree) (k : Int) : Option Tree := do
  let i ← lookup t k
  if valid t i then do
    let j ← succ t i
    let ej ← readE t j
    let t1 ← setE t i ej
    let t2 ← setE t1 j none
    pure { t2 with count := t2.count - 1 }
  else pure t

/-- Model of `sgtree::find(key)`: the index held by the returned
    iterator; the end iterator holds `-1 = 2^32 - 1`. -/
def find (t : Tree) (k : Int) : Option Nat := do
  let i ← lookup t k
  if valid t i then pure i else pure (U - 1)

/-- Model of `sgtree::begin()`: the index of the smallest element, or
    the end sentinel on an empty tree. -/
def begin (t : Tree) : Option Nat := smallest t 0

/-- A state reachable by a sequence of insertions: fold `insert` over a
    key list starting from the default-constructed tree `sgtree()`
    (empty buffer, zero count); each key maps to itself as value. -/
def insertRun (ks : List Int) : Option Tree :=
  ks.foldlM (fun t k => insert t k k) ⟨[], 0⟩

/-- Raw in-order walk of the implicit subtree at `i` restricted to the
    first `len` slots (depth-metered). -/
def rawInorderF (len : Nat) : Nat → Nat → List Nat
  | 0, _ => []
  | fuel+1, i =>
    if i < len then
      rawInorderF len fuel (left i) ++ i :: rawInorderF len fuel (right i)
    else []

/-- Raw in-order positions of the subtree at `i` in a buffer of `len`
    slots; `len + 1` levels always cover the subtree. -/
def rawInorder (len i : Nat) : List Nat := rawInorderF len (len + 1) i

/-- Forward iteration as `main.cpp` performs it: starting from a cursor
    index, repeatedly dereference (both asserts checked) and advance by
    the live `succ` until the index equals the end sentinel `-1`. -/
def iterTraceF (t : Tree) : Nat → Nat → Option (List Nat)
  | 0, _ => none
  | fuel+1, i =>
    if i = U - 1 then pure []
    else do
      let ent ← readE t i
      let _ ← ent
      let j ← succ t i
      let r ← iterTraceF t fuel j
      pure (i :: r)

/-- Indices visited iterating from `begin()` to `end()`; at most one
    step per slot plus the final sentinel. -/
def iterAll (t : Tree) : Option (List Nat) := do
  let b ← begin t
  iterTraceF t (t.data.length + 1) b

/-- Key stored at slot `i` (meaningful under `Occ`). -/
def keyAt (t : Tree) (i : Nat) : Int :=
  match getE t i with
  | some p => p.key
  | none => 0

/-- Decidable membership of `j` in the implicit subtree rooted at `i`:
    some ancestor chain `(j+1) / 2^d` reaches `i+1`.  Depths beyond
    `j+1` give quotient `0 < i+1`, so the bounded search is complete. -/
def inSub (i j : Nat) : Bool :=
  (List.range (j + 2)).any (fun d => (j+1) / 2^d == i+1)

/-- Spec invariant 1 (BST order): every occupied slot in the left
    subtree of an occupied slot `i` carries a smaller key, every one in
    the right subtree a larger key. -/
def BstInv (t : Tree) : Prop :=
  ∀ i < t.data.length, ∀ j < t.data.length, Occ t i → Occ t j →
    (inSub (left i) j = true → keyAt t j < keyAt t i) ∧
    (inSub (right i) j = true → keyAt t i < keyAt t j)

/-- Spec invariant 2 (reachability): every occupied non-root slot has
    an occupied parent. -/
def ReachInv (t : Tree) : Prop :=
  ∀ i < t.data.length, Occ t i → 0 < i → Occ t (parent i)

/-- Spec invariant 3 (occupancy consistency): the counter equals the
    number of occupied slots. -/
def SizeInv (t : Tree) : Prop := t.count = occCount t

instance (t : Tree) (i : Nat) : Decidable (Occ t i) := by
  unfold Occ; infer_instance

instance bstBodyDec (t : Tree) (i j : Nat) :
    Decidable (Occ t i → Occ t j →
      (inSub (left i) j = true → keyAt t j < keyAt t i) ∧
      (inSub (right i) j = true → keyAt t i < keyAt t j)) :=
  inferInstance

instance bstInnerDec (t : Tree) (i : Nat) :
    Decidable (∀ j < t.data.length, Occ t i → Occ t j →
      (inSub (left i) j = true → keyAt t j < keyAt t i) ∧
      (inSub (right i) j = true → keyAt t i < keyAt t j)) :=
  Nat.decidableBallLT _ _

instance (t : Tree) : Decidable (BstInv t) := by
  unfold BstInv; exact Nat.decidableBallLT _ _

instance (t : Tree) : Decidable (ReachInv t) := by
  unfold ReachInv; infer_instance

instance (t : Tree) : Decidable (SizeInv t) := by
  unfold SizeInv; infer_instance

/-- State of the container after inserting each of `0,…,27` twice into a
    default-constructed `sgtree` (each `insert k` repeated so that the
    growth path, which discards the pending pair, is compensated).  The
    buffer holds 31 slots and 28 live keys; `count` is already inflated
    to 38 by the replacing inserts.  The occupied slots satisfy BST
    order and reachability. -/
def c1pre : Tree :=
  ⟨[some ⟨15,15⟩, some ⟨7,7⟩, some ⟨23,23⟩, some ⟨3,3⟩, some ⟨11,11⟩,
    some ⟨19,19⟩, some ⟨24,24⟩, some ⟨1,1⟩, some ⟨5,5⟩, some ⟨9,9⟩,
    some ⟨13,13⟩, some ⟨17,17⟩, some ⟨21,21⟩, none, some ⟨26,26⟩,
    some ⟨0,0⟩, some ⟨2,2⟩, some ⟨4,4⟩, some ⟨6,6⟩, some ⟨8,8⟩,
    some ⟨10,10⟩, some ⟨12,12⟩, some ⟨14,14⟩, some ⟨16,16⟩, some ⟨18,18⟩,
    some ⟨20,20⟩, some ⟨22,22⟩, none, none, some ⟨25,25⟩, some ⟨27,27⟩],
   38⟩

/-- Buffer contents after `rebalance(6, 5, {28,28})` runs on `c1pre`. -/
def c1post : Tree :=
  ⟨[some ⟨15,15⟩, some ⟨7,7⟩, some ⟨23,23⟩, some ⟨3,3⟩, some ⟨11,11⟩,
    some ⟨19,19⟩, some ⟨27,27⟩, some ⟨1,1⟩, some ⟨5,5⟩, some ⟨9,9⟩,
    some ⟨13,13⟩, some ⟨17,17⟩, some ⟨21,21⟩, some ⟨25,25⟩, none,
    some ⟨0,0⟩, some ⟨2,2⟩, some ⟨4,4⟩, some ⟨6,6⟩, some ⟨8,8⟩,
    some ⟨10,10⟩, some ⟨12,12⟩, some ⟨14,14⟩, some ⟨16,16⟩, some ⟨18,18⟩,
    some ⟨20,20⟩, some ⟨22,22⟩, some ⟨24,24⟩, some ⟨26,26⟩, some ⟨28,28⟩,
    none],
   38⟩

set_option maxRecDepth 200000 in
/-- Claim C1 (code bug).  On the invariant-satisfying state `c1pre`
    (reachable from the empty container by inserting `0,…,27`), looking
    up the absent key `28` misses at the out-of-bounds slot 62, and the
    scapegoat selector returns root `g = 6` with weight `w = 5`
    (counting the pending key: subtree 6 holds the 4 live keys
    `24,25,26,27`).  The in-place rebuild then writes the five pairs to
    bearings `27,13,28,6,29` — but slot 29's parent slot 14 is left
    empty, so the rebuilt subtree violates reachability and the freshly
    inserted key 28 is unreachable: a subsequent `find(28)` returns the
    end cursor.  This refutes the claim that the rebuild leaves the
    subtree a BST with reachability holding and the new key present. -/
theorem c1_rebalance_breaks_reachability :
    BstInv c1pre ∧ ReachInv c1pre ∧
    find c1pre 28 = some (U - 1) ∧
    lookup c1pre 28 = some 62 ∧
    ¬ 62 < c1pre.data.length ∧
    scapegoatF c1pre 67 62 1 = some (6, 5) ∧
    valid c1pre 6 = true ∧
    rebalance c1pre 6 5 ⟨28, 28⟩ = some c1post ∧
    Occ c1post 29 ∧ keyAt c1post 29 = 28 ∧
    parent 29 = 14 ∧ ¬ Occ c1post 14 ∧
    find c1post 28 = some (U - 1) := by
  decide

/-- Claim C2 (code bug).  From the invariant-satisfying one-element
    state, `insert` of the already-present key 5 replaces the value but
    still increments `count`: afterwards the counter is 2 while only
    one slot is occupied, violating occupancy consistency. -/
theorem c2_insert_present_key_breaks_size :
    BstInv (⟨[some ⟨5,7⟩], 1⟩ : Tree) ∧ ReachInv (⟨[some ⟨5,7⟩], 1⟩ : Tree) ∧
    SizeInv (⟨[some ⟨5,7⟩], 1⟩ : Tree) ∧
    insert ⟨[some ⟨5,7⟩], 1⟩ 5 9 = some ⟨[some ⟨5,9⟩], 2⟩ ∧
    occCount ⟨[some ⟨5,9⟩], 2⟩ = 1 ∧
    ¬ SizeInv (⟨[some ⟨5,9⟩], 2⟩ : Tree) := by
  decide

/-- Keys inserted to reach the C8 counterexample state: `0,…,27` each
    twice, then `28`. -/
def c8keys : List Int :=
  (List.range 28).flatMap (fun m => [Int.ofNat m, Int.ofNat m]) ++ [28]

/-- Iteration trace of the C8 counterexample state. -/
def c8trace : List Nat :=
  [15, 7, 16, 3, 17, 8, 18, 1, 19, 9, 20, 4, 21, 10, 22, 0,
   23, 11, 24, 5, 25, 12, 26, 2, 27, 13, 28, 6]

set_option maxRecDepth 200000 in
/-- Claim C8 (code bug).  The insertion sequence `0,0,1,1,…,27,27,28`
    drives the container into `c1post` (the 57th insert triggers the
    reachability-breaking rebuild of C1).  That state has 29 occupied
    slots, but iterating from `begin()` to `end()` by the live `succ`
    visits only 28 of them: slot 29 (key 28) is never visited because
    its parent slot 14 is empty.  This refutes the claim that iteration
    visits every occupied slot for every insertion-reachable state. -/
theorem c8_iteration_misses_occupied_slot :
    insertRun c8keys = some c1post ∧
    occCount c1post = 29 ∧
    Occ c1post 29 ∧
    iterAll c1post = some c8trace ∧
    c8trace.length = 28 ∧
    29 ∉ c8trace := by
  decide

/-- Claim C6 (code bug).  Starting from the invariant-satisfying
    one-element state, inserting the same mapping twice increments
    `count` both times (the present-key path replaces the value and
    still runs `count++`), so the size after the second insert differs
    from the size after the first. -/
theorem c6_insert_twice_changes_size :
    BstInv (⟨[some ⟨3,1⟩], 1⟩ : Tree) ∧ ReachInv (⟨[some ⟨3,1⟩], 1⟩ : Tree) ∧
    SizeInv (⟨[some ⟨3,1⟩], 1⟩ : Tree) ∧
    insert ⟨[some ⟨3,1⟩], 1⟩ 3 1 = some ⟨[some ⟨3,1⟩], 2⟩ ∧
    insert ⟨[some ⟨3,1⟩], 2⟩ 3 1 = some ⟨[some ⟨3,1⟩], 3⟩ ∧
    (3 : Nat) ≠ 2 := by
  decide

/-- Claim C5 (code bug).  From the invariant-satisfying full 3-slot
    state, `insert(30, 5)` replaces the maximum key's value in place;
    the following `erase(30)` locates slot 2, whose live successor is
    the sentinel `-1 = 2^32-1` (the climb walks past the root), and the
    code then reads `data[2^32-1]`, firing the buffer bounds assertion.
    The sequence aborts rather than ending with `find` returning the
    end cursor. -/
theorem c5_erase_after_insert_hits_assert :
    BstInv (⟨[some ⟨20,1⟩, some ⟨10,2⟩, some ⟨30,3⟩], 3⟩ : Tree) ∧
    ReachInv (⟨[some ⟨20,1⟩, some ⟨10,2⟩, some ⟨30,3⟩], 3⟩ : Tree) ∧
    SizeInv (⟨[some ⟨20,1⟩, some ⟨10,2⟩, some ⟨30,3⟩], 3⟩ : Tree) ∧
    insert ⟨[some ⟨20,1⟩, some ⟨10,2⟩, some ⟨30,3⟩], 3⟩ 30 5 =
      some ⟨[some ⟨20,1⟩, some ⟨10,2⟩, some ⟨30,5⟩], 4⟩ ∧
    succ ⟨[some ⟨20,1⟩, some ⟨10,2⟩, some ⟨30,5⟩], 4⟩ 2 = some (U - 1) ∧
    erase ⟨[some ⟨20,1⟩, some ⟨10,2⟩, some ⟨30,5⟩], 4⟩ 30 = none := by
  decide

/-- Claim C9 (code bug).  On the invariant-satisfying singleton state,
    `erase(10)` finds slot 0; the successor computation climbs past the
    root and yields `parent(0) = 2^32-1`, and `erase` then evaluates
    `data[2^32-1]`, an index not below the buffer size 1, so the bounds
    assertion of `buffer::operator[]` fires.  This refutes the claim
    that every buffer index touched by `erase` is below the size. -/
theorem c9_erase_max_reads_out_of_bounds :
    BstInv (⟨[some ⟨10,0⟩], 1⟩ : Tree) ∧ ReachInv (⟨[some ⟨10,0⟩], 1⟩ : Tree) ∧
    SizeInv (⟨[some ⟨10,0⟩], 1⟩ : Tree) ∧
    lookup ⟨[some ⟨10,0⟩], 1⟩ 10 = some 0 ∧
    succ ⟨[some ⟨10,0⟩], 1⟩ 0 = some (U - 1) ∧
    ¬ U - 1 < 1 ∧
    erase ⟨[some ⟨10,0⟩], 1⟩ 10 = none := by
  decide

/-- Full seven-slot state used to exercise the growth path. -/
def c3pre : Tree :=
  ⟨[some ⟨40,0⟩, some ⟨20,0⟩, some ⟨60,0⟩, some ⟨10,0⟩,
    some ⟨30,0⟩, some ⟨50,0⟩, some ⟨70,0⟩], 7⟩

/-- Buffer contents after the growth triggered by inserting 80. -/
def c3post : Tree :=
  ⟨[some ⟨40,0⟩, some ⟨20,0⟩, some ⟨60,0⟩, some ⟨10,0⟩,
    some ⟨30,0⟩, some ⟨50,0⟩, some ⟨70,0⟩,
    none, none, none, none, none, none, none, none], 7⟩

/-- Claim C3 (counterexample).  Inserting 80 into the full 7-slot state
    finds no scapegoat and grows the buffer to `2*7+1 = 15` — but the
    seven live entries stay at slots `0,…,6`.  The first 7 in-order
    positions of the grown implicit tree are `7,3,8,1,9,4,10`; slot 7,
    the first of them, is empty while 7 entries are live, so the live
    set is not re-embedded into the first `size` in-order positions. -/
theorem c3_growth_does_not_reembed :
    BstInv c3pre ∧ ReachInv c3pre ∧ SizeInv c3pre ∧
    insert c3pre 80 0 = some c3post ∧
    c3post.data.length = 15 ∧
    (rawInorder 15 0).take 7 = [7, 3, 8, 1, 9, 4, 10] ∧
    occCount c3post = 7 ∧
    getE c3post 7 = none ∧
    getE c3post 0 = some ⟨40, 0⟩ := by
  decide

/-- Claim C3 (amended).  Whenever the growth path of `sgtree::expand`
    runs — the scapegoat walk returned an index that is not a valid
    slot — the buffer is resized to `2*size+1` (or 1 from 0), which
    turns a `2^h - 1` capacity into `2^(h+1) - 1`; the live entries are
    left at their existing indices, the new tail slots are empty, and
    the element counter is unchanged.  No re-embedding of the live set
    into the first `size` in-order positions takes place. -/
theorem c3_growth_amended (t : Tree) (i g w : Nat) (e : Pair)
    (hsg : scapegoatF t (i + 5) i 1 = some (g, w))
    (hg : valid t g = false)
    (hlen : 2 * t.data.length + 1 < U) :
    ∃ t2, expand t i e = some t2 ∧
      t2.data.length = (if t.data.length = 0 then 1 else 2 * t.data.length + 1) ∧
      t2.count = t.count ∧
      (∀ j, j < t.data.length → getE t2 j = getE t j) ∧
      (∀ j, t.data.length ≤ j → getE t2 j = none) ∧
      (∀ h, t.data.length = 2 ^ h - 1 → t2.data.length = 2 ^ (h + 1) - 1) := by
  have hmod : (2 * t.data.length + 1) % U = 2 * t.data.length + 1 :=
    Nat.mod_eq_of_lt hlen
  by_cases h0 : t.data.length = 0
  · have hnil : t.data = [] := List.eq_nil_of_length_eq_zero h0
    refine ⟨⟨[none], t.count⟩, ?_, by simp [h0], rfl, ?_, ?_, ?_⟩
    · simp [expand, hsg, hg, h0, resize, hnil]
    · intro j hj
      omega
    · intro j hj
      cases j <;> simp [getE, List.getD]
    · intro h hh
      have hzero : h = 0 := by
        by_contra hne
        have h2 : 2 ≤ 2 ^ h := by
          calc 2 = 2 ^ 1 := rfl
          _ ≤ 2 ^ h := Nat.pow_le_pow_right (by omega) (by omega)
        omega
      subst hzero
      simp
  · have htake : List.take (2 * t.data.length + 1) t.data = t.data :=
      List.take_of_length_le (by omega)
    have harg : (if t.data.length = 0 then 1 else (2 * t.data.length + 1) % U)
        = 2 * t.data.length + 1 := by
      rw [if_neg h0, hmod]
    have hrep : 2 * t.data.length + 1 - t.data.length = t.data.length + 1 := by
      omega
    refine ⟨⟨t.data ++ List.replicate (t.data.length + 1) none, t.count⟩,
      ?_, ?_, rfl, ?_, ?_, ?_⟩
    · simp only [expand, hsg, hg, Option.bind_eq_bind, Option.some_bind,
        Bool.false_eq_true, if_false, resize, harg, htake, hrep]
      rfl
    · rw [if_neg h0]
      simp
      omega
    · intro j hj
      simp only [getE]
      rw [List.getD_append _ _ _ _ hj]
    · intro j hj
      simp only [getE]
      rcases Nat.lt_or_ge j (2 * t.data.length + 1) with hlt | hge
      · rw [List.getD_eq_getElem?_getD, List.getElem?_append_right hj]
        simp only [List.getElem?_replicate]
        split <;> rfl
      · rw [List.getD_eq_getElem?_getD, List.getElem?_eq_none]
        · rfl
        · simp
          omega
    · intro h hh
      have h2 : 1 ≤ 2 ^ h := Nat.one_le_two_pow
      simp only [List.length_append, List.length_replicate, hh, Nat.pow_succ]
      omega

/-- Depth-meter adequacy of `weightF`: one level of meter per level of
    the buffer suffices, because the inspected indices double. -/
theorem weightF_isSome (t : Tree) :
    ∀ (fuel x : Nat), t.data.length < (x + 1) * 2 ^ fuel →
      (weightF t (fuel + 1) x).isSome = true := by
  intro fuel
  induction fuel with
  | zero =>
    intro x h
    have hx : ¬ x < t.data.length := by omega
    simp [weightF, valid, hx]
  | succ f ih =>
    intro x h
    by_cases hv : valid t x = true
    · have h1 : t.data.length < (left x + 1) * 2 ^ f := by
        have he : (x + 1) * 2 ^ (f + 1) = (left x + 1) * 2 ^ f := by
          simp only [left, Nat.pow_succ]
          ring
        omega
      have h2 : t.data.length < (right x + 1) * 2 ^ f := by
        have he : (left x + 1) * 2 ^ f ≤ (right x + 1) * 2 ^ f := by
          have hle : left x + 1 ≤ right x + 1 := by simp only [left, right]; omega
          exact Nat.mul_le_mul_right _ hle
        omega
      obtain ⟨a, ha⟩ := Option.isSome_iff_exists.mp (ih (left x) h1)
      obtain ⟨b, hb⟩ := Option.isSome_iff_exists.mp (ih (right x) h2)
      rw [weightF]
      simp [hv, ha, hb]
    · rw [weightF]
      simp [hv]

/-- The recursive `weight` always delivers a value at its canonical
    depth meter. -/
theorem weight_isSome (t : Tree) (x : Nat) : (weight t x).isSome = true := by
  have h : t.data.length < (x + 1) * 2 ^ t.data.length := by
    have h1 : t.data.length < 2 ^ t.data.length := Nat.lt_two_pow _
    have h2 : 2 ^ t.data.length ≤ (x + 1) * 2 ^ t.data.length :=
      Nat.le_mul_of_pos_left _ (by omega)
    omega
  exact weightF_isSome t t.data.length x h

/-- Parent index over plain (non-wrapping) arithmetic, as the spec
    describes ancestors. -/
def pparent (i : Nat) : Nat := (i + 1) / 2 - 1

/-- Modelled from the spec, §4.6 (scapegoat selection): starting from a
    node, walk upward; at each ancestor compute the sibling subtree's
    weight `b`, set `w' = w + b + 1`, and stop at the first ancestor
    satisfying the weight-balance condition (here with α = 1/2, i.e.
    `w > w'/2` or `b > w'/2`, the form the code hard-wires as
    `2*a > w' || 2*b > w'`), returning that ancestor and `w'`; `none`
    means the walk reached the root without the condition holding. -/
def specWalk (t : Tree) (i w : Nat) : Option (Nat × Nat) :=
  if h : i = 0 then none
  else
    let b := (weight t (sibling i)).getD 0
    let w2 := w + b + 1
    if 2 * w > w2 ∨ 2 * b > w2 then some (pparent i, w2)
    else specWalk t (pparent i) w2
termination_by i
decreasing_by
  simp only [pparent]
  omega

/-- Bridge between the code's wrapped `parent` and the plain one on
    interior indices. -/
theorem parent_eq_pparent (i : Nat) (h1 : 1 ≤ i) (h2 : i < U - 1) :
    parent i = pparent i := by
  simp only [parent, pparent, U] at *
  omega

/-- The plain parent of a positive index is strictly smaller. -/
theorem pparent_lt (i : Nat) (h1 : 1 ≤ i) : pparent i < i := by
  simp only [pparent]
  omega

/-- Core relation between the code's scapegoat walk and the walk the
    spec describes: on any start below the wrap sentinel, the code
    terminates within `i + 4` steps, agrees with the spec walk whenever
    the latter finds an unbalanced ancestor, and otherwise returns the
    out-of-buffer sentinel `2^32 - 1`. -/
theorem scapegoat_walk_spec (t : Tree) (hlen : t.data.length < U) :
    ∀ i, i < U - 1 → ∀ fuel w, i + 4 ≤ fuel → 1 ≤ w →
    ∃ r, scapegoatF t fuel i w = some r ∧
      ((∃ p pw, specWalk t i w = some (p, pw) ∧ r = (p, pw)) ∨
       (specWalk t i w = none ∧ r.1 = U - 1)) := by
  intro i
  induction i using Nat.strong_induction_on with
  | _ i ih =>
    intro hi fuel w hfuel hw
    obtain ⟨f, rfl⟩ : ∃ f, fuel = f + 1 := ⟨fuel - 1, by omega⟩
    by_cases hiz : i = 0
    · subst hiz
      have hs0 : sibling 0 = U - 1 := by decide
      have hnv : valid t (U - 1) = false := by
        have hx : ¬ U - 1 < t.data.length := by
          simp only [U] at *
          omega
        simp [valid, hx]
      have hw0 : weight t (U - 1) = some 0 := by
        rw [weight, weightF]
        simp [hnv]
      have hsU : sibling (U - 1) = 0 := by decide
      have hpU : parent (U - 1) = U - 1 := by decide
      have hp0 : parent 0 = U - 1 := by decide
      obtain ⟨W, hW⟩ := Option.isSome_iff_exists.mp (weight_isSome t 0)
      have hspec : specWalk t 0 w = none := by
        rw [specWalk]
        simp
      by_cases hcond : 2 * w > w + 0 + 1 ∨ 2 * 0 > w + 0 + 1
      · refine ⟨(parent 0, w + 0 + 1), ?_, Or.inr ⟨hspec, by rw [hp0]⟩⟩
        rw [scapegoatF]
        rw [hs0, hw0]
        simp only [Option.bind_eq_bind, Option.some_bind, Option.pure_def]
        rw [if_pos hcond]
      · have hw1 : w = 1 := by omega
        subst hw1
        obtain ⟨g, rfl⟩ : ∃ g, f = g + 1 := ⟨f - 1, by omega⟩
        have step1 : scapegoatF t (g + 1 + 1) 0 1 = scapegoatF t (g + 1) (U - 1) 2 := by
          rw [scapegoatF, hs0, hw0]
          simp only [Option.bind_eq_bind, Option.some_bind, Option.pure_def]
          rw [if_neg hcond, hp0]
        by_cases hc2 : 2 * 2 > 2 + W + 1 ∨ 2 * W > 2 + W + 1
        · refine ⟨(U - 1, 2 + W + 1), ?_, Or.inr ⟨hspec, rfl⟩⟩
          rw [step1, scapegoatF, hsU, hW]
          simp only [Option.bind_eq_bind, Option.some_bind, Option.pure_def]
          rw [if_pos hc2, hpU]
        · obtain ⟨h2, rfl⟩ : ∃ h2, g = h2 + 1 := ⟨g - 1, by omega⟩
          have step2 : scapegoatF t (h2 + 1 + 1) (U - 1) 2
              = scapegoatF t (h2 + 1) (U - 1) (2 + W + 1) := by
            rw [scapegoatF, hsU, hW]
            simp only [Option.bind_eq_bind, Option.some_bind, Option.pure_def]
            rw [if_neg hc2, hpU]
          have hc3 : 2 * (2 + W + 1) > (2 + W + 1) + W + 1 ∨
              2 * W > (2 + W + 1) + W + 1 := by
            left
            omega
          refine ⟨(U - 1, (2 + W + 1) + W + 1), ?_, Or.inr ⟨hspec, rfl⟩⟩
          rw [step1, step2, scapegoatF, hsU, hW]
          simp only [Option.bind_eq_bind, Option.some_bind, Option.pure_def]
          rw [if_pos hc3, hpU]
    · have h1i : 1 ≤ i := by omega
      have hpar : parent i = pparent i := parent_eq_pparent i h1i hi
      obtain ⟨b, hb⟩ := Option.isSome_iff_exists.mp (weight_isSome t (sibling i))
      have hpp : pparent i < i := pparent_lt i h1i
      have hstep : scapegoatF t (f + 1) i w
          = (if 2 * w > w + b + 1 ∨ 2 * b > w + b + 1
             then some (parent i, w + b + 1)
             else scapegoatF t f (parent i) (w + b + 1)) := by
        rw [scapegoatF, hb]
        simp only [Option.bind_eq_bind, Option.some_bind, Option.pure_def]
      have hsw : specWalk t i w
          = (if 2 * w > w + b + 1 ∨ 2 * b > w + b + 1
             then some (pparent i, w + b + 1)
             else specWalk t (pparent i) (w + b + 1)) := by
        rw [specWalk, dif_neg hiz, hb]
        simp only [Option.getD_some]
      by_cases hcond : 2 * w > w + b + 1 ∨ 2 * b > w + b + 1
      · refine ⟨(parent i, w + b + 1), ?_, Or.inl ⟨pparent i, w + b + 1, ?_, ?_⟩⟩
        · rw [hstep, if_pos hcond]
        · rw [hsw, if_pos hcond]
        · rw [hpar]
      · obtain ⟨r, hr, hrel⟩ := ih (pparent i) hpp (by omega) f (w + b + 1)
          (by omega) (by omega)
        refine ⟨r, ?_, ?_⟩
        · rw [hstep, if_neg hcond, hpar]
          exact hr
        · rw [hsw, if_neg hcond]
          exact hrel

/-- Characterization of `inSub` by an unbounded ancestor-chain
    exponent: the bounded search loses nothing because the quotient
    vanishes once the exponent passes `log2 (j+1)`. -/
theorem inSub_iff (i j : Nat) : inSub i j = true ↔ ∃ d, (j+1) / 2^d = i+1 := by
  unfold inSub
  rw [List.any_eq_true]
  constructor
  · rintro ⟨d, _, he⟩
    exact ⟨d, by simpa using he⟩
  · rintro ⟨d, he⟩
    refine ⟨d, List.mem_range.mpr ?_, by simpa using he⟩
    have h1 : 1 ≤ (j+1) / 2^d := by omega
    have h2 : 2^d ≤ j+1 := (Nat.one_le_div_iff (Nat.pos_pow_of_pos d (by omega))).mp h1
    have h3 : d < 2^d := Nat.lt_two_pow d
    omega

/-- Every index lies in its own subtree. -/
theorem inSub_self (i : Nat) : inSub i i = true :=
  (inSub_iff i i).mpr ⟨0, by simp⟩

/-- Subtree members never precede the root. -/
theorem inSub_le {i j : Nat} (h : inSub i j = true) : i ≤ j := by
  obtain ⟨d, hd⟩ := (inSub_iff i j).mp h
  have := Nat.div_le_self (j+1) (2^d)
  omega

/-- Every index lies in the root's subtree. -/
theorem inSub_zero (j : Nat) : inSub 0 j = true := by
  refine (inSub_iff 0 j).mpr ⟨Nat.log2 (j+1), ?_⟩
  have h0 : j + 1 ≠ 0 := by omega
  have h1 : 2 ^ Nat.log2 (j+1) ≤ j+1 := Nat.log2_self_le h0
  have h2 : j+1 < 2 ^ (Nat.log2 (j+1) + 1) := Nat.lt_log2_self
  have hp : 0 < 2 ^ Nat.log2 (j+1) := Nat.pos_pow_of_pos _ (by omega)
  have hlo : 1 ≤ (j+1) / 2 ^ Nat.log2 (j+1) := (Nat.one_le_div_iff hp).mpr h1
  have hhi : (j+1) / 2 ^ Nat.log2 (j+1) < 2 := by
    rw [Nat.div_lt_iff_lt_mul hp]
    calc j + 1 < 2 ^ (Nat.log2 (j+1) + 1) := h2
    _ = 2 * 2 ^ Nat.log2 (j+1) := by rw [Nat.pow_succ']
  omega

/-- Subtree membership decomposes along the root's children. -/
theorem inSub_split {i j : Nat} (h : inSub i j = true) :
    j = i ∨ inSub (left i) j = true ∨ inSub (right i) j = true := by
  obtain ⟨d, hd⟩ := (inSub_iff i j).mp h
  cases d with
  | zero =>
    left
    simpa using hd
  | succ d =>
    right
    have hm : (j+1)/2^d / 2 = i+1 := by
      rw [Nat.div_div_eq_div_mul, ← Nat.pow_succ]
      exact hd
    have hcase : (j+1)/2^d = 2*i+2 ∨ (j+1)/2^d = 2*i+3 := by omega
    rcases hcase with h1 | h1
    · exact Or.inl ((inSub_iff _ _).mpr ⟨d, by rw [h1]; simp [left]⟩)
    · exact Or.inr ((inSub_iff _ _).mpr ⟨d, by rw [h1]; simp [right]⟩)

/-- Climbing one level preserves subtree membership (plain parent). -/
theorem inSub_parent {i j : Nat} (h : inSub i j = true) (hne : j ≠ i) :
    inSub i (pparent j) = true ∧ pparent j < j := by
  obtain ⟨d, hd⟩ := (inSub_iff i j).mp h
  have hd1 : 1 ≤ d := by
    rcases Nat.eq_zero_or_pos d with h0 | h1
    · subst h0
      simp at hd
      omega
    · exact h1
  have hj1 : 1 ≤ j := by
    by_contra hj0
    have : j = 0 := by omega
    subst this
    rcases Nat.lt_or_ge d 1 with hl | hg
    · omega
    · have : (0+1) / 2^d = 0 := by
        apply Nat.div_eq_of_lt
        have := Nat.lt_two_pow d
        have h2 : 2^1 ≤ 2^d := Nat.pow_le_pow_right (by omega) hg
        omega
      omega
  constructor
  · refine (inSub_iff _ _).mpr ⟨d-1, ?_⟩
    have hpp : pparent j + 1 = (j+1)/2 := by
      simp only [pparent]
      omega
    rw [hpp, Nat.div_div_eq_div_mul]
    have : 2 * 2^(d-1) = 2^d := by
      rw [← Nat.pow_succ']
      congr 1
      omega
    rw [this]
    exact hd
  · simp only [pparent]
    omega

/-- Under reachability, every heap ancestor of an occupied slot is
    occupied. -/
theorem occ_ancestor (t : Tree) (hlen : t.data.length < U) (hr : ReachInv t) :
    ∀ j, Occ t j → ∀ i, inSub i j = true → Occ t i := by
  intro j
  induction j using Nat.strong_induction_on with
  | _ j ih =>
    intro hj i hij
    by_cases hji : j = i
    · subst hji
      exact hj
    · obtain ⟨hanc, hlt⟩ := inSub_parent hij hji
      have hj1 : 0 < j := by
        by_contra hj0
        have hz : j = 0 := by omega
        subst hz
        simp [pparent] at hlt
      have hpar : Occ t (parent j) := hr j hj.1 hj hj1
      have hje : j < U - 1 := by
        have := hj.1
        simp only [U] at *
        omega
      have hpe : parent j = pparent j := parent_eq_pparent j hj1 hje
      exact ih (pparent j) hlt (hpe ▸ hpar) i hanc

/-- One-step unfolding of the lookup descent on an invalid index. -/
theorem lookupF_step_nv (t : Tree) (k : Int) (fuel i : Nat)
    (hv : valid t i = false) : lookupF t k (fuel+1) i = some i := by
  simp [lookupF, hv]

/-- One-step unfolding of the lookup descent on an occupied index. -/
theorem lookupF_step_some (t : Tree) (k : Int) (fuel i : Nat) (e : Pair)
    (hv : valid t i = true) (he : getE t i = some e) :
    lookupF t k (fuel+1) i =
      if k < e.key then lookupF t k fuel (left i)
      else if e.key < k then lookupF t k fuel (right i)
      else some i := by
  simp [lookupF, hv, he]

/-- Occupancy written as the Bool guard. -/
theorem valid_eq_true_iff (t : Tree) (i : Nat) : valid t i = true ↔ Occ t i := by
  simp [valid, Occ]

/-- Soundness and completeness of the lookup descent: under the BST
    and reachability invariants, the descent from `i` terminates at
    either an occupied slot carrying the key, or an invalid index — in
    which case no occupied slot of `i`'s subtree carries the key. -/
theorem lookupF_correct (t : Tree) (k : Int) (hlen : t.data.length < U)
    (hb : BstInv t) (hr : ReachInv t) :
    ∀ fuel i, t.data.length < (i+1) * 2^fuel →
    ∃ r, lookupF t k (fuel+1) i = some r ∧
      ((Occ t r ∧ keyAt t r = k) ∨
       (valid t r = false ∧
        ∀ j, Occ t j → inSub i j = true → keyAt t j ≠ k)) := by
  intro fuel
  induction fuel with
  | zero =>
    intro i h
    have hnl : ¬ i < t.data.length := by omega
    have hv : valid t i = false := by simp [valid, hnl]
    refine ⟨i, lookupF_step_nv t k 0 i hv, Or.inr ⟨hv, ?_⟩⟩
    intro j hj hij _
    have h1 := inSub_le hij
    have h2 := hj.1
    omega
  | succ f ih =>
    intro i h
    have hfl : t.data.length < (left i + 1) * 2 ^ f := by
      have he : (i + 1) * 2 ^ (f + 1) = (left i + 1) * 2 ^ f := by
        simp only [left, Nat.pow_succ]
        ring
      omega
    have hfr : t.data.length < (right i + 1) * 2 ^ f := by
      have he : (left i + 1) * 2 ^ f ≤ (right i + 1) * 2 ^ f :=
        Nat.mul_le_mul_right _ (by simp only [left, right]; omega)
      omega
    by_cases hv : valid t i = true
    · have hocc : Occ t i := (valid_eq_true_iff t i).mp hv
      obtain ⟨e, he⟩ := Option.isSome_iff_exists.mp hocc.2
      have hki : keyAt t i = e.key := by simp [keyAt, he]
      by_cases h1 : k < e.key
      · obtain ⟨r, hrec, hrel⟩ := ih (left i) hfl
        refine ⟨r, ?_, ?_⟩
        · rw [lookupF_step_some t k (f+1) i e hv he, if_pos h1]
          exact hrec
        · rcases hrel with hgood | ⟨hvr, hall⟩
          · exact Or.inl hgood
          · refine Or.inr ⟨hvr, ?_⟩
            intro j hj hij hk
            rcases inSub_split hij with hji | hjl | hjr
            · subst hji
              rw [hk] at hki
              omega
            · exact hall j hj hjl hk
            · have := (hb i hocc.1 j hj.1 hocc hj).2 hjr
              rw [hk, hki] at this
              omega
      · by_cases h2 : e.key < k
        · obtain ⟨r, hrec, hrel⟩ := ih (right i) hfr
          refine ⟨r, ?_, ?_⟩
          · rw [lookupF_step_some t k (f+1) i e hv he, if_neg h1, if_pos h2]
            exact hrec
          · rcases hrel with hgood | ⟨hvr, hall⟩
            · exact Or.inl hgood
            · refine Or.inr ⟨hvr, ?_⟩
              intro j hj hij hk
              rcases inSub_split hij with hji | hjl | hjr
              · subst hji
                rw [hk] at hki
                omega
              · have := (hb i hocc.1 j hj.1 hocc hj).1 hjl
                rw [hk, hki] at this
                omega
              · exact hall j hj hjr hk
        · have hek : e.key = k := by omega
          refine ⟨i, ?_, Or.inl ⟨hocc, by rw [hki, hek]⟩⟩
          rw [lookupF_step_some t k (f+1) i e hv he, if_neg h1, if_neg h2]
    · have hvf : valid t i = false := by
        cases hq : valid t i
        · rfl
        · exact absurd hq hv
      refine ⟨i, lookupF_step_nv t k (f+1) i hvf, Or.inr ⟨hvf, ?_⟩⟩
      intro j hj hij _
      have hocc : Occ t i := occ_ancestor t hlen hr j hj i hij
      exact hv ((valid_eq_true_iff t i).mpr hocc)

/-- Witness for the amended C3: the growth triggered by inserting 80
    into the full seven-slot tree, where the scapegoat walk returns the
    sentinel `2^32 - 1` with accumulated weight 9. -/
theorem c3_growth_amended_witness :
    ∃ t2, expand c3pre 14 ⟨80, 0⟩ = some t2 ∧
      t2.data.length = (if c3pre.data.length = 0 then 1 else 2 * c3pre.data.length + 1) ∧
      t2.count = c3pre.count ∧
      (∀ j, j < c3pre.data.length → getE t2 j = getE c3pre j) ∧
      (∀ j, c3pre.data.length ≤ j → getE t2 j = none) ∧
      (∀ h, c3pre.data.length = 2 ^ h - 1 → t2.data.length = 2 ^ (h + 1) - 1) :=
  c3_growth_amended c3pre 14 (U - 1) 9 ⟨80, 0⟩ (by decide) (by decide) (by decide)

end SG

namespace CS

/-- Numeric range of the C++ `size_t` indices used by `compact_sgtree`. -/
def U64 : Nat := 18446744073709551616

/-- Model of `compact_sgtree::node`: the `deleted`/`left`/`right` flags
    (the `uint8_t` fields matter only through their truthiness here)
    and the stored pair. -/
structure Node where
  deleted : Bool
  left : Bool
  right : Bool
  key : Int
  val : Int
deriving Repr, DecidableEq

/-- Child index `_left(i) = 2*i + 1`. -/
def left (i : Nat) : Nat := 2*i + 1

/-- Child index `_right(i) = 2*i + 2`. -/
def right (i : Nat) : Nat := 2*i + 2

/-- Node stored at slot `i`; the default (an empty tombstone with clear
    flags) is only ever produced for out-of-range reads, which the
    checked accesses rule out. -/
def nodeAt (a : List Node) (i : Nat) : Node :=
  a.getD i ⟨true, false, false, 0, 0⟩

/-- Key stored at slot `i`. -/
def keyN (a : List Node) (i : Nat) : Int := (nodeAt a i).key

/-- In-range reads deliver the stored node. -/
theorem getElem?_eq_nodeAt (a : List Node) (i : Nat) (h : i < a.length) :
    a[i]? = some (nodeAt a i) := by
  rw [List.getElem?_eq_getElem h]
  simp [nodeAt, List.getD_eq_getElem?_getD, List.getElem?_eq_getElem h]

/-- Descent loop of `compact_sgtree::find`: guided by the child flags,
    returning the end sentinel `-1 = 2^64-1` on a missing branch or a
    tombstoned match.  Reads of `_array[i]` are unchecked in the code;
    `none` marks an out-of-range read (or meter exhaustion). -/
def findF (a : List Node) (k : Int) : Nat → Nat → Option Nat
  | 0, _ => none
  | fuel+1, i => do
    let n ← a[i]?
    if k < n.key then
      if n.left then findF a k fuel (left i) else some (U64 - 1)
    else if n.key < k then
      if n.right then findF a k fuel (right i) else some (U64 - 1)
    else
      if n.deleted then some (U64 - 1) else some i

/-- `find(k)` as the index the returned iterator holds; the descent
    doubles the slot index, so `a.length + 2` steps always suffice. -/
def find (a : List Node) (k : Int) : Option Nat :=
  findF a k (a.length + 2) 0

/-- Path check for membership in the flag tree: slot `i` is reachable
    from the root if each ancestor carries the child flag toward `i`.
    The meter bounds the path length. -/
def cinBF (a : List Node) : Nat → Nat → Bool
  | 0, _ => false
  | fuel+1, i =>
    if i = 0 then true
    else
      cinBF a fuel (SG.pparent i) &&
      (if i % 2 = 1 then (nodeAt a (SG.pparent i)).left
       else (nodeAt a (SG.pparent i)).right)

/-- Membership of slot `i` in the flag tree. -/
def cinB (a : List Node) (i : Nat) : Bool := cinBF a (i + 1) i

/-- The meter of `cinBF` is irrelevant once it covers the path. -/
theorem cinBF_stable (a : List Node) :
    ∀ i f g, i + 1 ≤ f → i + 1 ≤ g → cinBF a f i = cinBF a g i := by
  intro i
  induction i using Nat.strong_induction_on with
  | _ i ih =>
    intro f g hf hg
    obtain ⟨f1, rfl⟩ : ∃ f1, f = f1 + 1 := ⟨f - 1, by omega⟩
    obtain ⟨g1, rfl⟩ : ∃ g1, g = g1 + 1 := ⟨g - 1, by omega⟩
    by_cases h0 : i = 0
    · simp [cinBF, h0]
    · have hpp : SG.pparent i < i := SG.pparent_lt i (by omega)
      have hrec := ih (SG.pparent i) hpp f1 g1 (by omega) (by omega)
      simp only [cinBF, if_neg h0, hrec]

/-- The root always belongs to the flag tree. -/
theorem cinB_zero (a : List Node) : cinB a 0 = true := by
  simp [cinB, cinBF]

/-- The plain parent of a left child. -/
theorem pparent_left (i : Nat) : SG.pparent (left i) = i := by
  simp only [SG.pparent, left]
  omega

/-- The plain parent of a right child. -/
theorem pparent_right (i : Nat) : SG.pparent (right i) = i := by
  simp only [SG.pparent, right]
  omega

/-- Membership inversion at a left child. -/
theorem cinB_left_inv (a : List Node) (i : Nat) (h : cinB a (left i) = true) :
    cinB a i = true ∧ (nodeAt a i).left = true := by
  have h0 : ¬ left i = 0 := by simp [left]
  have hodd : left i % 2 = 1 := by simp [left]; omega
  rw [cinB, cinBF] at h
  rw [if_neg h0, Bool.and_eq_true] at h
  obtain ⟨h1, h2⟩ := h
  rw [pparent_left] at h1 h2
  rw [if_pos hodd] at h2
  refine ⟨?_, h2⟩
  rw [cinB, cinBF_stable a i (i+1) (left i) (by omega) (by simp [left]; omega)]
  exact h1

/-- Membership inversion at a right child. -/
theorem cinB_right_inv (a : List Node) (i : Nat) (h : cinB a (right i) = true) :
    cinB a i = true ∧ (nodeAt a i).right = true := by
  have h0 : ¬ right i = 0 := by simp [right]
  have heven : ¬ right i % 2 = 1 := by simp only [right]; omega
  rw [cinB, cinBF] at h
  rw [if_neg h0, Bool.and_eq_true] at h
  obtain ⟨h1, h2⟩ := h
  rw [pparent_right] at h1 h2
  rw [if_neg heven] at h2
  refine ⟨?_, h2⟩
  rw [cinB, cinBF_stable a i (i+1) (right i) (by omega) (by simp [right]; omega)]
  exact h1

/-- Membership at a left child from the parent's flag. -/
theorem cinB_left_intro (a : List Node) (i : Nat) (h : cinB a i = true)
    (hf : (nodeAt a i).left = true) : cinB a (left i) = true := by
  have h0 : ¬ left i = 0 := by simp [left]
  have hodd : left i % 2 = 1 := by simp [left]; omega
  rw [cinB, cinBF, if_neg h0, Bool.and_eq_true]
  rw [pparent_left]
  refine ⟨?_, by rw [if_pos hodd]; exact hf⟩
  rw [← cinBF_stable a i (i+1) (left i) (by omega) (by simp only [left]; omega)]
  exact h

/-- Membership at a right child from the parent's flag. -/
theorem cinB_right_intro (a : List Node) (i : Nat) (h : cinB a i = true)
    (hf : (nodeAt a i).right = true) : cinB a (right i) = true := by
  have h0 : ¬ right i = 0 := by simp [right]
  have heven : ¬ right i % 2 = 1 := by simp only [right]; omega
  rw [cinB, cinBF, if_neg h0, Bool.and_eq_true]
  rw [pparent_right]
  refine ⟨?_, by rw [if_neg heven]; exact hf⟩
  rw [← cinBF_stable a i (i+1) (right i) (by omega) (by simp only [right]; omega)]
  exact h

/-- Stepping down the path: membership of a non-root slot gives
    membership of its plain parent. -/
theorem cinB_pparent (a : List Node) (i : Nat) (h0 : i ≠ 0)
    (h : cinB a i = true) : cinB a (SG.pparent i) = true := by
  rw [cinB, cinBF, if_neg h0, Bool.and_eq_true] at h
  obtain ⟨h1, _⟩ := h
  rw [cinB, cinBF_stable a (SG.pparent i) (SG.pparent i + 1) i
    (by omega) (by have := SG.pparent_lt i (by omega); omega)]
  exact h1

/-- Membership descends to every heap ancestor. -/
theorem cinB_anc (a : List Node) :
    ∀ j, cinB a j = true → ∀ i, SG.inSub i j = true → cinB a i = true := by
  intro j
  induction j using Nat.strong_induction_on with
  | _ j ih =>
    intro hj i hij
    by_cases hji : j = i
    · subst hji
      exact hj
    · obtain ⟨hanc, hlt⟩ := SG.inSub_parent hij hji
      have hj0 : j ≠ 0 := by
        intro hz
        subst hz
        simp [SG.pparent] at hlt
      exact ih (SG.pparent j) hlt (cinB_pparent a j hj0 hj) i hanc

/-- Bounds invariant: the root slot exists and every set child flag of
    a flag-tree slot points below the capacity. -/
def CBound (a : List Node) : Prop :=
  0 < a.length ∧
  ∀ i < a.length, cinB a i = true →
    ((nodeAt a i).left = true → left i < a.length) ∧
    ((nodeAt a i).right = true → right i < a.length)

/-- BST invariant over the flag tree. -/
def CBst (a : List Node) : Prop :=
  ∀ i < a.length, ∀ j < a.length, cinB a i = true → cinB a j = true →
    (SG.inSub (left i) j = true → keyN a j < keyN a i) ∧
    (SG.inSub (right i) j = true → keyN a i < keyN a j)

instance cbBody (a : List Node) (i : Nat) :
    Decidable (cinB a i = true →
      ((nodeAt a i).left = true → left i < a.length) ∧
      ((nodeAt a i).right = true → right i < a.length)) :=
  inferInstance

instance (a : List Node) : Decidable (CBound a) := by
  unfold CBound
  exact instDecidableAnd

instance cbstBody (a : List Node) (i j : Nat) :
    Decidable (cinB a i = true → cinB a j = true →
      (SG.inSub (left i) j = true → keyN a j < keyN a i) ∧
      (SG.inSub (right i) j = true → keyN a i < keyN a j)) :=
  inferInstance

instance cbstInner (a : List Node) (i : Nat) :
    Decidable (∀ j < a.length, cinB a i = true → cinB a j = true →
      (SG.inSub (left i) j = true → keyN a j < keyN a i) ∧
      (SG.inSub (right i) j = true → keyN a i < keyN a j)) :=
  Nat.decidableBallLT _ _

instance (a : List Node) : Decidable (CBst a) := by
  unfold CBst
  exact Nat.decidableBallLT _ _

/-- Flag-tree members stay within the buffer. -/
theorem cinB_bound (a : List Node) (hb : CBound a) :
    ∀ i, cinB a i = true → i < a.length := by
  intro i
  induction i using Nat.strong_induction_on with
  | _ i ih =>
    intro hi
    by_cases h0 : i = 0
    · subst h0
      exact hb.1
    · have hpp : SG.pparent i < i := SG.pparent_lt i (by omega)
      have hp : cinB a (SG.pparent i) = true := cinB_pparent a i h0 hi
      have hplen : SG.pparent i < a.length := ih (SG.pparent i) hpp hp
      rw [cinB, cinBF, if_neg h0, Bool.and_eq_true] at hi
      obtain ⟨_, hflag⟩ := hi
      by_cases hodd : i % 2 = 1
      · rw [if_pos hodd] at hflag
        have := (hb.2 (SG.pparent i) hplen hp).1 hflag
        have hi2 : left (SG.pparent i) = i := by
          simp only [left, SG.pparent]
          omega
        omega
      · rw [if_neg hodd] at hflag
        have := (hb.2 (SG.pparent i) hplen hp).2 hflag
        have hi2 : right (SG.pparent i) = i := by
          simp only [right, SG.pparent]
          omega
        omega

/-- One-step unfolding of the compact find descent. -/
theorem findF_step (a : List Node) (k : Int) (fuel i : Nat)
    (h : i < a.length) :
    findF a k (fuel+1) i =
      (if k < (nodeAt a i).key then
        (if (nodeAt a i).left then findF a k fuel (left i) else some (U64 - 1))
      else if (nodeAt a i).key < k then
        (if (nodeAt a i).right then findF a k fuel (right i) else some (U64 - 1))
      else
        (if (nodeAt a i).deleted then some (U64 - 1) else some i)) := by
  simp [findF, getElem?_eq_nodeAt a i h]

/-- Soundness and completeness of the compact find descent under the
    bounds and BST invariants: from any flag-tree slot it reaches
    either a live slot carrying the key, or the end sentinel — and then
    no live slot of the subtree carries the key (a tombstoned match
    also yields the sentinel). -/
theorem findF_correct (a : List Node) (k : Int) (hb : CBound a) (hbst : CBst a) :
    ∀ fuel i, a.length < (i+1) * 2^fuel → cinB a i = true →
    ∃ r, findF a k (fuel+1) i = some r ∧
      ((cinB a r = true ∧ keyN a r = k ∧ (nodeAt a r).deleted = false) ∨
       (r = U64 - 1 ∧ ∀ j, cinB a j = true → SG.inSub i j = true →
          (nodeAt a j).deleted = false → keyN a j ≠ k)) := by
  intro fuel
  induction fuel with
  | zero =>
    intro i h hcin
    exact absurd (cinB_bound a hb i hcin) (by omega)
  | succ f ih =>
    intro i h hcin
    have hib : i < a.length := cinB_bound a hb i hcin
    have hfl : a.length < (left i + 1) * 2 ^ f := by
      have he : (i + 1) * 2 ^ (f + 1) = (left i + 1) * 2 ^ f := by
        simp only [left, Nat.pow_succ]
        ring
      omega
    have hfr : a.length < (right i + 1) * 2 ^ f := by
      have he : (left i + 1) * 2 ^ f ≤ (right i + 1) * 2 ^ f :=
        Nat.mul_le_mul_right _ (by simp only [left, right]; omega)
      omega
    by_cases h1 : k < (nodeAt a i).key
    · by_cases hflag : (nodeAt a i).left = true
      · obtain ⟨r, hrec, hrel⟩ := ih (left i) hfl (cinB_left_intro a i hcin hflag)
        refine ⟨r, ?_, ?_⟩
        · rw [findF_step a k (f+1) i hib, if_pos h1, if_pos hflag]
          exact hrec
        · rcases hrel with hgood | ⟨hend, hall⟩
          · exact Or.inl hgood
          · refine Or.inr ⟨hend, ?_⟩
            intro j hj hij hdel hk
            rcases SG.inSub_split hij with hji | hjl | hjr
            · subst hji
              simp only [keyN] at hk
              omega
            · exact hall j hj hjl hdel hk
            · have := (hbst i hib j (cinB_bound a hb j hj) hcin hj).2 hjr
              simp only [keyN] at this hk
              omega
      · have hflag2 : (nodeAt a i).left = false := by
          cases hq : (nodeAt a i).left
          · rfl
          · exact absurd hq hflag
        refine ⟨U64 - 1, ?_, Or.inr ⟨rfl, ?_⟩⟩
        · rw [findF_step a k (f+1) i hib, if_pos h1, hflag2]
          simp
        · intro j hj hij hdel hk
          rcases SG.inSub_split hij with hji | hjl | hjr
          · subst hji
            simp only [keyN] at hk
            omega
          · have hcl : cinB a (left i) = true := cinB_anc a j hj (left i) hjl
            have := (cinB_left_inv a i hcl).2
            rw [this] at hflag2
            exact absurd hflag2 (by simp)
          · have := (hbst i hib j (cinB_bound a hb j hj) hcin hj).2 hjr
            simp only [keyN] at this hk
            omega
    · by_cases h2 : (nodeAt a i).key < k
      · by_cases hflag : (nodeAt a i).right = true
        · obtain ⟨r, hrec, hrel⟩ := ih (right i) hfr (cinB_right_intro a i hcin hflag)
          refine ⟨r, ?_, ?_⟩
          · rw [findF_step a k (f+1) i hib, if_neg h1, if_pos h2, if_pos hflag]
            exact hrec
          · rcases hrel with hgood | ⟨hend, hall⟩
            · exact Or.inl hgood
            · refine Or.inr ⟨hend, ?_⟩
              intro j hj hij hdel hk
              rcases SG.inSub_split hij with hji | hjl | hjr
              · subst hji
                simp only [keyN] at hk
                omega
              · have := (hbst i hib j (cinB_bound a hb j hj) hcin hj).1 hjl
                simp only [keyN] at this hk
                omega
              · exact hall j hj hjr hdel hk
        · have hflag2 : (nodeAt a i).right = false := by
            cases hq : (nodeAt a i).right
            · rfl
            · exact absurd hq hflag
          refine ⟨U64 - 1, ?_, Or.inr ⟨rfl, ?_⟩⟩
          · rw [findF_step a k (f+1) i hib, if_neg h1, if_pos h2, hflag2]
            simp
          · intro j hj hij hdel hk
            rcases SG.inSub_split hij with hji | hjl | hjr
            · subst hji
              simp only [keyN] at hk
              omega
            · have := (hbst i hib j (cinB_bound a hb j hj) hcin hj).1 hjl
              simp only [keyN] at this hk
              omega
            · have hcr : cinB a (right i) = true := cinB_anc a j hj (right i) hjr
              have := (cinB_right_inv a i hcr).2
              rw [this] at hflag2
              exact absurd hflag2 (by simp)
      · have hek : (nodeAt a i).key = k := by omega
        by_cases hdel : (nodeAt a i).deleted = true
        · refine ⟨U64 - 1, ?_, Or.inr ⟨rfl, ?_⟩⟩
          · rw [findF_step a k (f+1) i hib, if_neg h1, if_neg h2, if_pos hdel]
          · intro j hj hij hdelj hk
            rcases SG.inSub_split hij with hji | hjl | hjr
            · subst hji
              rw [hdel] at hdelj
              exact absurd hdelj (by simp)
            · have := (hbst i hib j (cinB_bound a hb j hj) hcin hj).1 hjl
              simp only [keyN] at this hk
              omega
            · have := (hbst i hib j (cinB_bound a hb j hj) hcin hj).2 hjr
              simp only [keyN] at this hk
              omega
        · have hdel2 : (nodeAt a i).deleted = false := by
            cases hq : (nodeAt a i).deleted
            · rfl
            · exact absurd hq hdel
          refine ⟨i, ?_, Or.inl ⟨hcin, by simp [keyN, hek], hdel2⟩⟩
          rw [findF_step a k (f+1) i hib, if_neg h1, if_neg h2, if_neg hdel]

end CS

